import Mathlib

/-!
# Shallow embedding of the robot rate calculator (`src/lib.rs`)

The Rust crate computes a labeled timeline for a robot activity: rate
windows (`TimeRange`) valid on given weekdays, a periodic 8h-work/1h-rest
cycle (`BreakIterator`), a merged rate-window timeline
(`TimeRangesIterator`) and the top-level merge engine
(`RobotWorkTimeIterator`).

Modelling choices:
* `chrono::NaiveDateTime` is embedded as a plain `Int` — seconds since
  1970-01-01T00:00:00 (a Thursday).  Ordering, `+ Duration`, `date()`,
  `time()` and `weekday()` become integer arithmetic with Euclidean
  division (which is floor division for a positive divisor, matching the
  proleptic calendar).
* `chrono::NaiveTime` values are seconds-of-day in `[0, 86400)`.
* `HashSet<Weekday>` becomes a `List Weekday` queried through `memW`;
  only membership is observable in the source.
* Rust panics (`unwrap` on `None`) are modelled as `none` results.
* The `while` loop relocating an occurrence to a valid weekday is
  modelled with fuel 7 (`relocateFuel`); when no weekday is valid the
  Rust loop diverges, which the model maps to `none`.
-/

/-- `NaiveDateTime::time()` as seconds-of-day. -/
def timeOfDay (t : Int) : Int := t % 86400

/-- `NaiveDateTime::date()` as days-since-epoch. -/
def dayOf (t : Int) : Int := t / 86400

/-- `chrono::Weekday`. -/
inductive Weekday where
  | mon | tue | wed | thu | fri | sat | sun
deriving DecidableEq

/-- Numeric code of a weekday, Monday = 0 (chrono's `num_days_from_monday`). -/
def wdToNum : Weekday → Int
  | .mon => 0 | .tue => 1 | .wed => 2 | .thu => 3
  | .fri => 4 | .sat => 5 | .sun => 6

/-- Weekday from its numeric code modulo 7. -/
def wdFromNum (n : Int) : Weekday :=
  if n = 0 then .mon else if n = 1 then .tue else if n = 2 then .wed
  else if n = 3 then .thu else if n = 4 then .fri else if n = 5 then .sat
  else .sun

/-- `datetime.date().weekday()`: day 0 (1970-01-01) is a Thursday. -/
def weekdayOf (t : Int) : Weekday := wdFromNum ((dayOf t + 3) % 7)

/-- `HashSet<Weekday>::contains`. -/
def memW (w : Weekday) : List Weekday → Bool
  | [] => false
  | x :: xs => if x = w then true else memW w xs

/-- Days since 1970-01-01 of a proleptic-Gregorian civil date
(Hinnant's `days_from_civil` algorithm, which chrono agrees with). -/
def daysFromCivil (y m d : Int) : Int :=
  let y' : Int := if m ≤ 2 then y - 1 else y
  let era : Int := y' / 400
  let yoe : Int := y' - era * 400
  let mp : Int := (m + 9) % 12
  let doy : Int := (153 * mp + 2) / 5 + d - 1
  let doe : Int := yoe * 365 + yoe / 4 - yoe / 100 + doy
  era * 146097 + doe - 719468

/-- Build a timestamp from a civil date and clock time. -/
def mkDT (y mo d h mi s : Int) : Int :=
  daysFromCivil y mo d * 86400 + h * 3600 + mi * 60 + s

/-- `TimeRange` from `lib.rs`: a time-of-day window (`start > stop` wraps
past midnight) valid on the listed weekdays.  The Rust field `end` is a
Lean keyword and is rendered `stop`. -/
structure TimeRange where
  start : Int
  stop : Int
  valid_weekdays : List Weekday
deriving DecidableEq

namespace TimeRange

/-- `TimeRange::contains`. -/
def contains (r : TimeRange) (t : Int) : Bool :=
  if memW (weekdayOf t) r.valid_weekdays then
    let tod := timeOfDay t
    (r.start < r.stop && tod ≥ r.start && tod < r.stop) ||
      (r.start > r.stop && (tod ≥ r.start || tod < r.stop))
  else false

/-- The candidate occurrence computed by `TimeRange::get_next_range_start_at`
before the weekday-relocation loop (`ans` in the source). -/
def candidate (r : TimeRange) (t : Int) : Option (Int × Int) :=
  let tod := timeOfDay t
  let d := dayOf t
  if r.start < r.stop then
    if tod ≥ r.start && tod < r.stop then some (t, d * 86400 + r.stop)
    else none
  else
    if tod < r.start && tod > r.stop then none
    else if tod ≥ r.start then some (t, (d + 1) * 86400)
    else if tod < r.stop then some (t, d * 86400 + r.stop)
    else none

/-- The `while !self.valid_weekdays.contains(..)` relocation loop, advancing
both bounds one day at a time.  Fuel 7 suffices whenever some weekday is
valid; an empty weekday set makes the Rust loop diverge, modelled `none`. -/
def relocateFuel (r : TimeRange) : Nat → Int × Int → Option (Int × Int)
  | 0, _ => none
  | n + 1, (s, e) =>
    if memW (weekdayOf s) r.valid_weekdays then some (s, e)
    else relocateFuel r n (s + 86400, e + 86400)

/-- `TimeRange::get_next_range_start_at`. -/
def get_next_range_start_at (r : TimeRange) (t : Int) : Option (Int × Int) :=
  (r.candidate t).bind (relocateFuel r 7)

end TimeRange

/-- `BreakIterator` from `lib.rs`. -/
structure BreakIterator where
  start : Int
  work_duration : Int
  rest_duration : Int
deriving DecidableEq

namespace BreakIterator

/-- `BreakIterator::next` (it never returns `None`). -/
def next (it : BreakIterator) : (Int × Int) × BreakIterator :=
  let work_end := it.start + it.work_duration
  ((work_end, work_end + it.rest_duration),
    { it with start := work_end + it.rest_duration })

/-- The pair produced by the `k`-th call to `next` (0-based). -/
def nthPair (it : BreakIterator) : Nat → Int × Int
  | 0 => it.next.1
  | k + 1 => it.next.2.nthPair k

end BreakIterator

/-- The `for (idx, range) in ranges.iter().enumerate() { if range.contains(t)
{ next_idx = Some(idx) } }` scan used by `TimeRangesIterator::new` and
`::next`: later matches overwrite earlier ones. -/
def lastContainingIdxAux (t : Int) : List TimeRange → Nat → Option Nat → Option Nat
  | [], _, acc => acc
  | r :: rs, i, acc =>
    lastContainingIdxAux t rs (i + 1) (if r.contains t then some i else acc)

/-- Index selected by the overwrite scan, if any range contains `t`. -/
def lastContainingIdx (ranges : List TimeRange) (t : Int) : Option Nat :=
  lastContainingIdxAux t ranges 0 none

/-- Minimum `next_dt` over `ranges.iter().filter_map(|r|
r.get_next_range_start_at(t)).min_by_key(|(_, next_dt)| *next_dt)`.  Only the
key (the occurrence end) of the minimum is consumed by the source, so the
model takes the minimum of the keys directly. -/
def minNextDt (ranges : List TimeRange) (t : Int) : Option Int :=
  (ranges.filterMap fun r => (r.get_next_range_start_at t).map Prod.snd).foldl
    (fun acc e =>
      match acc with
      | none => some e
      | some a => some (if e < a then e else a))
    none

/-- `TimeRangesIterator` from `lib.rs` (`TimeSegmentsIterator` in its doc
comment). -/
structure TimeRangesIterator where
  cur : Int × Nat
  time_ranges : List TimeRange
deriving DecidableEq

namespace TimeRangesIterator

/-- `TimeRangesIterator::new`: scan for a range containing `start`. -/
def new (start : Int) (time_ranges : List TimeRange) : Option TimeRangesIterator :=
  (lastContainingIdx time_ranges start).map fun idx =>
    { cur := (start, idx), time_ranges := time_ranges }

/-- `TimeRangesIterator::next`: return the current pair and advance to the
earliest next occurrence boundary.  The internal `unwrap`s (empty candidate
set, or no range containing the new instant) are modelled as `none`. -/
def next (it : TimeRangesIterator) : Option ((Int × Nat) × TimeRangesIterator) :=
  match minNextDt it.time_ranges it.cur.1 with
  | none => none
  | some next_dt =>
    match lastContainingIdx it.time_ranges next_dt with
    | none => none
    | some next_idx =>
      some (it.cur, { it with cur := (next_dt, next_idx) })

end TimeRangesIterator

/-- `RobotWorkTime` from `lib.rs`.  The Rust field `end` is rendered `stop`. -/
structure RobotWorkTime where
  start : Int
  stop : Int
  time_range : List TimeRange
deriving DecidableEq

/-- `RobotWorkTimeIterator` from `lib.rs`.  The Rust field `end` is rendered
`stop`. -/
structure RobotWorkTimeIterator where
  cur : Int × Option Nat
  stop : Int
  time_ranges_iter : TimeRangesIterator
  break_iter : BreakIterator
  breaking : Option (Int × Option Nat)
  is_finish : Bool
deriving DecidableEq

namespace RobotWorkTimeIterator

/-- `RobotWorkTimeIterator::next`.  The result is `none` when the Rust code
would panic; `some (none, it)` when the Rust call returns `None`; and
`some (some item, it)` when it yields `item`.  Cloning a sub-iterator and
calling `next` on the clone (the source's peek idiom) is the same as calling
`next` on the model value, which is why the clone does not appear. -/
def next (it : RobotWorkTimeIterator) :
    Option (Option (Int × Option Nat) × RobotWorkTimeIterator) :=
  if it.is_finish then some (none, it)
  else if it.stop ≤ it.cur.1 then
    some (some (it.stop, none), { it with is_finish := true })
  else
    match it.breaking with
    | some (break_end, end_status) =>
      match it.time_ranges_iter.next with
      | none => none
      | some ((next_time_seg, next_status), tri) =>
        if next_time_seg ≤ break_end then
          some (some it.cur,
            { it with breaking := none, time_ranges_iter := tri,
                      cur := (break_end, some next_status) })
        else
          some (some it.cur,
            { it with breaking := none, cur := (break_end, end_status) })
    | none =>
      match it.time_ranges_iter.next with
      | none => none
      | some ((next_time_seg, next_status), tri) =>
        let break_begin := it.break_iter.start + it.break_iter.work_duration
        let break_end := break_begin + it.break_iter.rest_duration
        if next_time_seg < break_begin then
          some (some it.cur,
            { it with cur := (next_time_seg, some next_status),
                      time_ranges_iter := tri })
        else
          some (some it.cur,
            { it with cur := (break_begin, none),
                      breaking := some (break_end, it.cur.2),
                      break_iter := { it.break_iter with start := break_end } })

end RobotWorkTimeIterator

namespace RobotWorkTime

/-- `RobotWorkTime::into_iter`; the two construction `unwrap`s become
`Option` layers. -/
def into_iter (t : RobotWorkTime) : Option RobotWorkTimeIterator :=
  match TimeRangesIterator.new t.start t.time_range with
  | none => none
  | some tri0 =>
    match tri0.next with
    | none => none
    | some (cur, tri) =>
      some { cur := (cur.1, some cur.2), stop := t.stop,
             time_ranges_iter := tri,
             break_iter :=
               { start := t.start, work_duration := 8 * 3600,
                 rest_duration := 1 * 3600 },
             breaking := none, is_finish := false }

end RobotWorkTime

/-- Collect the items yielded by a `RobotWorkTimeIterator` under a fuel
bound: `some xs` when the stream is exhausted within `fuel` calls, `none` on
a modelled panic or when the fuel runs out. -/
def runIter : Nat → RobotWorkTimeIterator → Option (List (Int × Option Nat))
  | 0, _ => none
  | fuel + 1, it =>
    match it.next with
    | none => none
    | some (none, _) => some []
    | some (some x, it') => (runIter fuel it').map (x :: ·)

/-- Call `next` `k` times, keeping only the final iterator state. -/
def consumeK : Nat → RobotWorkTimeIterator → Option RobotWorkTimeIterator
  | 0, it => some it
  | k + 1, it =>
    match it.next with
    | none => none
    | some (_, it') => consumeK k it'

/-- The per-window elapsed-duration fold of `integration_test_2` / `main.rs`:
walk consecutive emitted pairs `(s, status) , (e, _)` and add `e - s`
seconds to slot `status` when it is a rate-window index. -/
def accPairs : List Int → List (Int × Option Nat) → List Int
  | acc, [] => acc
  | acc, [_] => acc
  | acc, x :: y :: xs =>
    accPairs
      (match x.2 with
       | some idx => acc.set idx (acc.getD idx 0 + (y.1 - x.1))
       | none => acc)
      (y :: xs)

/-- Total owed amount: per-window whole minutes (`Duration::num_minutes`
truncates) times the per-minute rates, summed. -/
def totalOwed (xs : List (Int × Option Nat)) (rates : List Int) : Int :=
  ((accPairs (List.replicate rates.length 0) xs).zip rates).foldl
    (fun a dr => a + dr.1.tdiv 60 * dr.2) 0

/-- Pairwise strict increase of the emitted instants. -/
def strictIncrB : List (Int × Option Nat) → Bool
  | [] => true
  | [_] => true
  | x :: y :: xs => decide (x.1 < y.1) && strictIncrB (y :: xs)

/-- The telescoping sum of the signed interval durations
`instant_{i+1} - instant_i`. -/
def telesum : List (Int × Option Nat) → Int
  | [] => 0
  | [_] => 0
  | x :: y :: xs => (y.1 - x.1) + telesum (y :: xs)

/-- The last emission of a run, if any. -/
def lastE : List (Int × Option Nat) → Option (Int × Option Nat)
  | [] => none
  | [x] => some x
  | _ :: y :: xs => lastE (y :: xs)

/-- Instants of the resting-labeled emissions: `none`-labeled pairs other
than the terminal finished marker (the last emission). -/
def restStarts : List (Int × Option Nat) → List Int
  | [] => []
  | [_] => []
  | x :: y :: xs => (if x.2.isNone then [x.1] else []) ++ restStarts (y :: xs)

/-! ## Concrete configurations from the repository's tests -/

/-- The weekday set used by the tests and `main.rs`. -/
def weekdayL : List Weekday := [.mon, .tue, .wed, .thu, .fri]

/-- The weekend set used by the tests and `main.rs`. -/
def weekendL : List Weekday := [.sat, .sun]

/-- The four-window scheme of `robot_work_time_iter_test` and
`integration_test_2`: standard day / standard night / extra day /
extra night. -/
def scheme4 : List TimeRange :=
  [ ⟨7 * 3600, 23 * 3600, weekdayL⟩, ⟨23 * 3600, 7 * 3600, weekdayL⟩,
    ⟨7 * 3600, 23 * 3600, weekendL⟩, ⟨23 * 3600, 7 * 3600, weekendL⟩ ]

/-- The activity of `robot_work_time_iter_test`. -/
def c1RW : RobotWorkTime :=
  ⟨mkDT 2021 9 5 22 0 0, mkDT 2021 9 6 12 59 0, scheme4⟩

/-- The iterator produced by `c1RW.into_iter`. -/
def c1It : RobotWorkTimeIterator :=
  ⟨(mkDT 2021 9 5 22 0 0, some 2), mkDT 2021 9 6 12 59 0,
   ⟨(mkDT 2021 9 5 23 0 0, 3), scheme4⟩,
   ⟨mkDT 2021 9 5 22 0 0, 8 * 3600, 1 * 3600⟩, none, false⟩

/-- The sequence emitted for the `c1RW` activity. -/
def c1xs : List (Int × Option Nat) :=
  [(mkDT 2021 9 5 22 0 0, some 2), (mkDT 2021 9 5 23 0 0, some 3),
   (mkDT 2021 9 6 0 0 0, some 1), (mkDT 2021 9 6 6 0 0, none),
   (mkDT 2021 9 6 7 0 0, some 0), (mkDT 2021 9 6 12 59 0, none)]

/-- The activity of `integration_test_2`. -/
def c6RW : RobotWorkTime :=
  ⟨mkDT 2038 1 11 7 0 0, mkDT 2038 1 17 19 0 0, scheme4⟩

/-- The full week, for configurations whose windows apply every day. -/
def allWeek : List Weekday := [.mon, .tue, .wed, .thu, .fri, .sat, .sun]

/-- A midnight-wrapping window `23:00 → 07:00`, valid every day. -/
def c5r : TimeRange := ⟨23 * 3600, 7 * 3600, allWeek⟩

/-- A concrete finished iterator (used by witnesses). -/
def finishedIt : RobotWorkTimeIterator :=
  ⟨(0, none), 0, ⟨(0, 0), []⟩, ⟨0, 0, 0⟩, none, true⟩

/-- A two-window total partition of the week whose second window is only
25 minutes long: `[08:05, 08:30)` and the wrapping `[08:30, 08:05)`, both
valid every day. -/
def cexRanges : List TimeRange :=
  [⟨29100, 30600, allWeek⟩, ⟨30600, 29100, allWeek⟩]

/-- An activity over `cexRanges` starting 1970-01-01T00:00 and ending at
10:00, placing the 25-minute window inside the first rest hour. -/
def cexRW : RobotWorkTime := ⟨0, 36000, cexRanges⟩

/-- A degenerate activity (`end = start`) over `cexRanges`. -/
def degRW : RobotWorkTime := ⟨0, 0, cexRanges⟩

/-- Deliberately overlapping windows (the partition invariant violated):
windows 1 and 2 both contain time-of-day `02:00`, windows 0, 1 and 2 all
contain `01:00`. -/
def ovRanges : List TimeRange :=
  [⟨0, 7200, allWeek⟩, ⟨3600, 10800, allWeek⟩, ⟨3600, 10900, allWeek⟩]

/-- A rate-window iterator over `ovRanges` positioned at midnight. -/
def ovIt : TimeRangesIterator := ⟨(0, 0), ovRanges⟩

/-- A weekend-only day window, for exercising weekday relocation. -/
def r9 : TimeRange := ⟨7 * 3600, 23 * 3600, weekendL⟩

/-- The instant of the next rest start to be emitted from a given
merge-iterator state: when a rest is pending (`breaking` set) its start is
one rest-duration before the already-advanced break anchor, otherwise it is
one work-duration after the anchor.  Stated for the fixed 8h/1h cycle. -/
def firstRestStart (it : RobotWorkTimeIterator) : Int :=
  if it.breaking.isSome then it.break_iter.start - 3600
  else it.break_iter.start + 28800

/-- A rate-window iterator over `cexRanges` whose next transition is at
`08:30` (seconds 30600), labeled window 1. -/
def tri3 : TimeRangesIterator := ⟨(30600, 1), cexRanges⟩

/-- A merge-iterator state about to enter a rest period: the next rate
transition (30600) is not before the next rest start (28800). -/
def it3a : RobotWorkTimeIterator :=
  ⟨(0, some 0), 86400, tri3, ⟨0, 28800, 3600⟩, none, false⟩

/-- A merge-iterator state inside a rest period `[28800, 32400]` whose next
rate transition (30600) falls within it. -/
def it3b : RobotWorkTimeIterator :=
  ⟨(28800, none), 86400, tri3, ⟨32400, 28800, 3600⟩, some (32400, some 0), false⟩

/-- The iterator produced by `degRW.into_iter`. -/
def degIt : RobotWorkTimeIterator :=
  ⟨(0, some 1), 0, ⟨(29100, 0), cexRanges⟩, ⟨0, 28800, 3600⟩, none, false⟩

/-! ## Claim theorems -/

/-- **C1.** For the activity `2021-09-05T22:00:00 → 2021-09-06T12:59:00`
with the four-window scheme, the sequence emitted by
`RobotWorkTime::into_iter` is exactly `(22:00 Sun, window 2)`,
`(23:00, window 3)`, `(00:00 Mon, window 1)`, `(06:00, resting)`,
`(07:00, window 0)`, `(12:59, finished)`, after which `next()` returns
`None` forever (the state after the six yields has `is_finish` set, and a
finished iterator returns `None` from every later call, its state
unchanged). -/
theorem claim_C1 :
    c1RW.into_iter.bind (runIter 20) =
      some [(mkDT 2021 9 5 22 0 0, some 2), (mkDT 2021 9 5 23 0 0, some 3),
            (mkDT 2021 9 6 0 0 0, some 1), (mkDT 2021 9 6 6 0 0, none),
            (mkDT 2021 9 6 7 0 0, some 0), (mkDT 2021 9 6 12 59 0, none)]
    ∧ (c1RW.into_iter.bind (consumeK 6)).map RobotWorkTimeIterator.is_finish =
        some true
    ∧ ∀ it : RobotWorkTimeIterator, it.is_finish = true →
        it.next = some (none, it) ∧ ∀ k, consumeK k it = some it := by
  refine ⟨by decide, by decide, ?_⟩
  intro it h
  have hnext : it.next = some (none, it) := by
    unfold RobotWorkTimeIterator.next
    rw [if_pos h]
  refine ⟨hnext, ?_⟩
  intro k
  induction k with
  | zero => rfl
  | succ k ih =>
    unfold consumeK
    rw [hnext]
    exact ih

/-- Witness for C1: the finished-state conjunct applied at a concrete
iterator. -/
theorem claim_C1_witness :
    finishedIt.next = some (none, finishedIt) ∧
      consumeK 3 finishedIt = some finishedIt :=
  ⟨(claim_C1.2.2 finishedIt rfl).1, (claim_C1.2.2 finishedIt rfl).2 3⟩

/-- **C6.** For the activity `2038-01-11T07:00:00 → 2038-01-17T19:00:00`
over the four-window scheme with per-minute rates 20/25/30/35, the
aggregate of per-window active minutes times rates (resting minutes
contributing zero) is exactly 202200. -/
theorem claim_C6 :
    (c6RW.into_iter.bind (runIter 60)).map
        (fun xs => totalOwed xs [20, 25, 30, 35]) = some 202200 := by
  decide

/-- **C5 counterexample.** At `1970-01-01T23:30:00` (time-of-day ≥ the wrap
window's start) the candidate occurrence ends at the next midnight
(`d.and_hms(0,0,0) + days(1)` in the source), not at time `end` of the next
calendar day as the claim states: the claimed end would be `111600`
(= next day 07:00) but the code produces `86400` (= next day 00:00). -/
theorem claim_C5_counterexample :
    c5r.stop < c5r.start ∧ c5r.start ≤ timeOfDay 84600 ∧
    c5r.candidate 84600 = some (84600, 86400) ∧
    c5r.get_next_range_start_at 84600 = some (84600, 86400) ∧
    ((86400 : Int) = (dayOf 84600 + 1) * 86400 + c5r.stop → False) := by
  decide

/-- **C5 (amended).** Whenever the candidate of
`TimeRange::get_next_range_start_at` (before weekday relocation) is
`Some((s, e))`, `s` is the instant itself and `e` is: the same calendar day
at time `end` when the window does not wrap and the time-of-day is in
`[start, end)`; **midnight of the next calendar day** when the window wraps
and the time-of-day is ≥ `start`; the same day at time `end` when the
window wraps and the time-of-day is < `end`; in all remaining time-of-day
cases the result is `None`. -/
theorem claim_C5_amended : ∀ (r : TimeRange) (t : Int),
    (r.start < r.stop →
      r.candidate t =
        if r.start ≤ timeOfDay t ∧ timeOfDay t < r.stop then
          some (t, dayOf t * 86400 + r.stop)
        else none) ∧
    (r.stop < r.start →
      r.candidate t =
        if r.start ≤ timeOfDay t then some (t, (dayOf t + 1) * 86400)
        else if timeOfDay t < r.stop then some (t, dayOf t * 86400 + r.stop)
        else none) := by
  intro r t
  constructor <;> intro h <;>
    simp only [TimeRange.candidate, Bool.and_eq_true, decide_eq_true_eq,
      ge_iff_le, gt_iff_lt] <;>
    split_ifs <;> first | rfl | omega

/-- Witness for the amended C5 at the concrete wrap window and instant. -/
theorem claim_C5_amended_witness :
    c5r.candidate 84600 =
      (if c5r.start ≤ timeOfDay 84600 then some ((84600 : Int), (dayOf 84600 + 1) * 86400)
       else if timeOfDay 84600 < c5r.stop then some (84600, dayOf 84600 * 86400 + c5r.stop)
       else none) :=
  (claim_C5_amended c5r 84600).2 (by decide)

/-- The overwrite scan returns its accumulator when no range matches. -/
theorem lastContainingIdxAux_of_no_match (t : Int) :
    ∀ (rs : List TimeRange) (i : Nat) (acc : Option Nat),
      (∀ r ∈ rs, r.contains t = false) →
      lastContainingIdxAux t rs i acc = acc := by
  intro rs
  induction rs with
  | nil => intro i acc _; rfl
  | cons r rs ih =>
    intro i acc h
    have hr : r.contains t = false := h r (List.mem_cons_self r rs)
    simp only [lastContainingIdxAux, hr, Bool.false_eq_true, if_false]
    exact ih (i + 1) acc fun r' hm => h r' (List.mem_cons_of_mem _ hm)

/-- The overwrite scan returns `i + k` when position `k` matches and no
later position does. -/
theorem lastContainingIdxAux_eq (t : Int) :
    ∀ (rs : List TimeRange) (k : Nat) (rk : TimeRange) (i : Nat)
      (acc : Option Nat),
      rs.get? k = some rk → rk.contains t = true →
      (∀ j r, k < j → rs.get? j = some r → r.contains t = false) →
      lastContainingIdxAux t rs i acc = some (i + k) := by
  intro rs
  induction rs with
  | nil => intro k rk i acc hk; simp at hk
  | cons r rs ih =>
    intro k rk i acc hk hc hmax
    cases k with
    | zero =>
      simp only [List.get?_cons_zero, Option.some.injEq] at hk
      subst hk
      simp only [lastContainingIdxAux, hc, if_true]
      have hno : ∀ r' ∈ rs, r'.contains t = false := by
        intro r' hm
        obtain ⟨j, hj⟩ := List.get?_of_mem hm
        exact hmax (j + 1) r' (Nat.succ_pos j) (by simpa using hj)
      rw [lastContainingIdxAux_of_no_match t rs (i + 1) (some i) hno]
      simp
    | succ k' =>
      simp only [List.get?_cons_succ] at hk
      have hmax' : ∀ j r', k' < j → rs.get? j = some r' →
          r'.contains t = false := by
        intro j r' hj hje
        exact hmax (j + 1) r' (Nat.succ_lt_succ hj) (by simpa using hje)
      simp only [lastContainingIdxAux]
      rw [ih k' rk (i + 1) _ hk hc hmax']
      congr 1
      omega

/-- Among the ranges containing `t` (if any) there is one of greatest
index. -/
theorem exists_greatest_containing (t : Int) :
    ∀ rs : List TimeRange,
      (∃ k rk, rs.get? k = some rk ∧ rk.contains t = true) →
      ∃ k rk, rs.get? k = some rk ∧ rk.contains t = true ∧
        ∀ j r, k < j → rs.get? j = some r → r.contains t = false := by
  intro rs
  induction rs with
  | nil => rintro ⟨k, rk, hk, -⟩; simp at hk
  | cons r rs ih =>
    rintro ⟨k, rk, hk, hc⟩
    by_cases h : ∃ k' rk', rs.get? k' = some rk' ∧ rk'.contains t = true
    · obtain ⟨k', rk', hk', hc', hmax'⟩ := ih h
      refine ⟨k' + 1, rk', by simpa using hk', hc', ?_⟩
      intro j r' hj hje
      cases j with
      | zero => omega
      | succ j' =>
        exact hmax' j' r' (Nat.lt_of_succ_lt_succ hj) (by simpa using hje)
    · have hr : r.contains t = true := by
        cases k with
        | zero =>
          simp only [List.get?_cons_zero, Option.some.injEq] at hk
          rw [hk]; exact hc
        | succ k' => exact absurd ⟨k', rk, by simpa using hk, hc⟩ h
      refine ⟨0, r, rfl, hr, ?_⟩
      intro j r' hj hje
      cases j with
      | zero => omega
      | succ j' =>
        by_contra hcon
        exact h ⟨j', r', by simpa using hje,
          by simpa using Bool.not_eq_false _ ▸ hcon⟩

/-- A `some` result of the overwrite scan is the accumulator or a matching
index. -/
theorem lastContainingIdxAux_some (t : Int) :
    ∀ (rs : List TimeRange) (i : Nat) (acc : Option Nat) (m : Nat),
      lastContainingIdxAux t rs i acc = some m →
      acc = some m ∨
        ∃ k rk, rs.get? k = some rk ∧ rk.contains t = true ∧ m = i + k := by
  intro rs
  induction rs with
  | nil => intro i acc m h; exact Or.inl h
  | cons r rs ih =>
    intro i acc m h
    simp only [lastContainingIdxAux] at h
    rcases ih (i + 1) _ m h with hacc | ⟨k, rk, hk, hc, hm⟩
    · by_cases hr : r.contains t = true
      · rw [if_pos hr] at hacc
        right
        refine ⟨0, r, rfl, hr, ?_⟩
        injection hacc with h'
        omega
      · rw [if_neg hr] at hacc
        exact Or.inl hacc
    · right
      exact ⟨k + 1, rk, by simpa using hk, hc, by omega⟩

/-- **C8.** `TimeRangesIterator::new(start, ranges)` returns `None` iff no
range contains `start`; when at least one does, it returns `Some` of an
iterator whose state is `(start, i)` for some index `i` of a range
containing `start`. -/
theorem claim_C8 : ∀ (s : Int) (ranges : List TimeRange),
    (TimeRangesIterator.new s ranges = none ↔
      ∀ r ∈ ranges, r.contains s = false) ∧
    (∀ it, TimeRangesIterator.new s ranges = some it →
      it.cur.1 = s ∧ it.time_ranges = ranges ∧
      ∃ rk, ranges.get? it.cur.2 = some rk ∧ rk.contains s = true) := by
  intro s ranges
  constructor
  · constructor
    · intro h r hm
      by_contra hc
      obtain ⟨k, hk⟩ := List.get?_of_mem hm
      have hex : ∃ k rk, ranges.get? k = some rk ∧ rk.contains s = true :=
        ⟨k, r, hk, by simpa using Bool.not_eq_false _ ▸ hc⟩
      obtain ⟨k', rk', hk', hc', hmax⟩ := exists_greatest_containing s ranges hex
      have heq : lastContainingIdx ranges s = some (0 + k') :=
        lastContainingIdxAux_eq s ranges k' rk' 0 none hk' hc' hmax
      simp [TimeRangesIterator.new, heq] at h
    · intro h
      simp [TimeRangesIterator.new, lastContainingIdx,
        lastContainingIdxAux_of_no_match s ranges 0 none h]
  · intro it hit
    simp only [TimeRangesIterator.new] at hit
    cases hl : lastContainingIdx ranges s with
    | none => rw [hl] at hit; simp at hit
    | some m =>
      rw [hl] at hit
      simp only [Option.map_some', Option.some.injEq] at hit
      subst hit
      refine ⟨rfl, rfl, ?_⟩
      rcases lastContainingIdxAux_some s ranges 0 none m hl with h | ⟨k, rk, hk, hc, hm⟩
      · exact absurd h (by simp)
      · exact ⟨rk, by rw [hm]; simpa using hk, hc⟩

/-- Witness for C8 at a concrete start and range list. -/
theorem claim_C8_witness :
    (⟨(3600, 2), ovRanges⟩ : TimeRangesIterator).cur.1 = 3600 ∧
    (⟨(3600, 2), ovRanges⟩ : TimeRangesIterator).time_ranges = ovRanges ∧
    ∃ rk, ovRanges.get? (⟨(3600, 2), ovRanges⟩ : TimeRangesIterator).cur.2 =
        some rk ∧ rk.contains 3600 = true :=
  (claim_C8 3600 ovRanges).2 ⟨(3600, 2), ovRanges⟩ (by decide)

/-- **C10.** If more than one `TimeRange` contains a given instant,
neither `TimeRangesIterator::new` nor a `next` step fails: both scan the
ranges in order letting later matches overwrite earlier ones, so both
deterministically select the containing range of greatest index. -/
theorem claim_C10 :
    (∀ (s : Int) (ranges : List TimeRange) (i j : Nat) (ri rj : TimeRange),
      i ≠ j → ranges.get? i = some ri → ranges.get? j = some rj →
      ri.contains s = true → rj.contains s = true →
      ∃ m rm, TimeRangesIterator.new s ranges = some ⟨(s, m), ranges⟩ ∧
        ranges.get? m = some rm ∧ rm.contains s = true ∧
        ∀ j' r', m < j' → ranges.get? j' = some r' →
          r'.contains s = false) ∧
    (∀ (it : TimeRangesIterator) (nd : Int) (i j : Nat) (ri rj : TimeRange),
      minNextDt it.time_ranges it.cur.1 = some nd →
      i ≠ j → it.time_ranges.get? i = some ri →
      it.time_ranges.get? j = some rj →
      ri.contains nd = true → rj.contains nd = true →
      ∃ m rm, it.next = some (it.cur, ⟨(nd, m), it.time_ranges⟩) ∧
        it.time_ranges.get? m = some rm ∧ rm.contains nd = true ∧
        ∀ j' r', m < j' → it.time_ranges.get? j' = some r' →
          r'.contains nd = false) := by
  constructor
  · intro s ranges i j ri rj _ hi _ hci _
    obtain ⟨m, rm, hm, hcm, hmax⟩ :=
      exists_greatest_containing s ranges ⟨i, ri, hi, hci⟩
    have heq : lastContainingIdx ranges s = some (0 + m) :=
      lastContainingIdxAux_eq s ranges m rm 0 none hm hcm hmax
    refine ⟨m, rm, ?_, hm, hcm, hmax⟩
    simp [TimeRangesIterator.new, heq]
  · intro it nd i j ri rj hmin _ hi _ hci _
    obtain ⟨m, rm, hm, hcm, hmax⟩ :=
      exists_greatest_containing nd it.time_ranges ⟨i, ri, hi, hci⟩
    have heq : lastContainingIdx it.time_ranges nd = some (0 + m) :=
      lastContainingIdxAux_eq nd it.time_ranges m rm 0 none hm hcm hmax
    refine ⟨m, rm, ?_, hm, hcm, hmax⟩
    simp [TimeRangesIterator.next, hmin, heq]

/-- A finished merge iterator yields `None` with its state unchanged. -/
theorem next_finished (it : RobotWorkTimeIterator) (h : it.is_finish = true) :
    it.next = some (none, it) := by
  unfold RobotWorkTimeIterator.next
  rw [if_pos h]

/-- A live merge iterator whose current instant has reached the activity
end emits the terminal `(end, None)` pair and sets `is_finish`. -/
theorem next_terminal (it : RobotWorkTimeIterator) (h1 : it.is_finish = false)
    (h2 : it.stop ≤ it.cur.1) :
    it.next = some (some (it.stop, none), { it with is_finish := true }) := by
  unfold RobotWorkTimeIterator.next
  rw [if_neg (by simp [h1]), if_pos h2]

/-- Non-resting step, rate transition strictly first: emit the current
pair, advance the rate timeline. -/
theorem next_rate (it : RobotWorkTimeIterator) (nts : Int) (nst : Nat)
    (tri : TimeRangesIterator) (hfin : it.is_finish = false)
    (hlt : it.cur.1 < it.stop) (hbr : it.breaking = none)
    (htri : it.time_ranges_iter.next = some ((nts, nst), tri))
    (hcmp : nts < it.break_iter.start + it.break_iter.work_duration) :
    it.next = some (some it.cur,
      { it with cur := (nts, some nst), time_ranges_iter := tri }) := by
  simp only [RobotWorkTimeIterator.next, hbr, htri]
  rw [if_neg (by simp [hfin]), if_neg (not_le.mpr hlt), if_pos hcmp]

/-- Non-resting step, rest starting at or before the next rate transition:
emit the current pair, schedule the rest, advance the break generator. -/
theorem next_rest (it : RobotWorkTimeIterator) (nts : Int) (nst : Nat)
    (tri : TimeRangesIterator) (hfin : it.is_finish = false)
    (hlt : it.cur.1 < it.stop) (hbr : it.breaking = none)
    (htri : it.time_ranges_iter.next = some ((nts, nst), tri))
    (hge : it.break_iter.start + it.break_iter.work_duration ≤ nts) :
    it.next = some (some it.cur,
      { it with
          cur := (it.break_iter.start + it.break_iter.work_duration, none),
          breaking := some (it.break_iter.start + it.break_iter.work_duration
            + it.break_iter.rest_duration, it.cur.2),
          break_iter := { it.break_iter with
            start := it.break_iter.start + it.break_iter.work_duration
              + it.break_iter.rest_duration } }) := by
  simp only [RobotWorkTimeIterator.next, hbr, htri]
  rw [if_neg (by simp [hfin]), if_neg (not_le.mpr hlt),
    if_neg (not_lt.mpr hge)]

/-- Resting step with a rate transition at or before the rest end: the
transition is absorbed (the rate timeline advances past it without a
separate emission) and the pair emitted after the rest resumes with the
absorbed transition's window. -/
theorem next_absorb (it : RobotWorkTimeIterator) (be : Int) (st : Option Nat)
    (nts : Int) (nst : Nat) (tri : TimeRangesIterator)
    (hfin : it.is_finish = false) (hlt : it.cur.1 < it.stop)
    (hbr : it.breaking = some (be, st))
    (htri : it.time_ranges_iter.next = some ((nts, nst), tri))
    (hle : nts ≤ be) :
    it.next = some (some it.cur,
      { it with breaking := none, time_ranges_iter := tri,
                cur := (be, some nst) }) := by
  simp only [RobotWorkTimeIterator.next, hbr, htri]
  rw [if_neg (by simp [hfin]), if_neg (not_le.mpr hlt), if_pos hle]

/-- Resting step whose next rate transition lies beyond the rest end: the
rest ends into the label that was active when the rest began. -/
theorem next_noabsorb (it : RobotWorkTimeIterator) (be : Int) (st : Option Nat)
    (nts : Int) (nst : Nat) (tri : TimeRangesIterator)
    (hfin : it.is_finish = false) (hlt : it.cur.1 < it.stop)
    (hbr : it.breaking = some (be, st))
    (htri : it.time_ranges_iter.next = some ((nts, nst), tri))
    (hgt : be < nts) :
    it.next = some (some it.cur,
      { it with breaking := none, cur := (be, st) }) := by
  simp only [RobotWorkTimeIterator.next, hbr, htri]
  rw [if_neg (by simp [hfin]), if_neg (not_le.mpr hlt),
    if_neg (not_le.mpr hgt)]

/-- **C3.** While not resting, if the next rest start is at or before the
next rate transition, the emitted boundary is the rest start with the
resting label (rest wins ties) and the rate transition is not separately
emitted; while resting, a transition at or before the rest end is absorbed
without its own emission and only shows up as the label of the subsequent
`(rest_end, resumed-label)` pair, which names the absorbed transition's
window. -/
theorem claim_C3 :
    (∀ (it : RobotWorkTimeIterator) (nts : Int) (nst : Nat)
        (tri : TimeRangesIterator),
      it.is_finish = false → it.cur.1 < it.stop → it.breaking = none →
      it.time_ranges_iter.next = some ((nts, nst), tri) →
      it.break_iter.start + it.break_iter.work_duration ≤ nts →
      it.next = some (some it.cur,
        { it with
            cur := (it.break_iter.start + it.break_iter.work_duration, none),
            breaking := some (it.break_iter.start +
              it.break_iter.work_duration + it.break_iter.rest_duration,
              it.cur.2),
            break_iter := { it.break_iter with
              start := it.break_iter.start + it.break_iter.work_duration
                + it.break_iter.rest_duration } })) ∧
    (∀ (it : RobotWorkTimeIterator) (be : Int) (st : Option Nat) (nts : Int)
        (nst : Nat) (tri : TimeRangesIterator),
      it.is_finish = false → it.cur.1 < it.stop →
      it.breaking = some (be, st) →
      it.time_ranges_iter.next = some ((nts, nst), tri) →
      nts ≤ be →
      it.next = some (some it.cur,
        { it with breaking := none, time_ranges_iter := tri,
                  cur := (be, some nst) })) :=
  ⟨fun it nts nst tri h1 h2 h3 h4 h5 => next_rest it nts nst tri h1 h2 h3 h4 h5,
   fun it be st nts nst tri h1 h2 h3 h4 h5 =>
     next_absorb it be st nts nst tri h1 h2 h3 h4 h5⟩

/-- Witness for C3: a concrete tie-winning rest entry and a concrete
absorbed transition. -/
theorem claim_C3_witness :
    it3a.next = some (some it3a.cur,
      { it3a with
          cur := (it3a.break_iter.start + it3a.break_iter.work_duration, none),
          breaking := some (it3a.break_iter.start +
            it3a.break_iter.work_duration + it3a.break_iter.rest_duration,
            it3a.cur.2),
          break_iter := { it3a.break_iter with
            start := it3a.break_iter.start + it3a.break_iter.work_duration
              + it3a.break_iter.rest_duration } }) ∧
    it3b.next = some (some it3b.cur,
      { it3b with breaking := none,
                  time_ranges_iter := ⟨(86400, 1), cexRanges⟩,
                  cur := (32400, some 1) }) :=
  ⟨claim_C3.1 it3a 30600 1 ⟨(86400, 1), cexRanges⟩ rfl (by decide) rfl
      (by decide) (by decide),
   claim_C3.2 it3b 32400 (some 0) 30600 1 ⟨(86400, 1), cexRanges⟩ rfl
      (by decide) rfl (by decide) (by decide)⟩

/-- The per-label duration fold yields zero on a run with no interval. -/
theorem totalOwed_singleton (x : Int × Option Nat) (rates : List Int) :
    totalOwed [x] rates = 0 := by
  have haux : ∀ (rs : List Int) (zs : List Int), (∀ z ∈ zs, z = 0) →
      (zs.zip rs).foldl (fun a dr => a + dr.1.tdiv 60 * dr.2) 0 = 0 := by
    intro rs
    induction rs with
    | nil => intro zs _; cases zs <;> rfl
    | cons r rs ih =>
      intro zs hz
      cases zs with
      | nil => rfl
      | cons z zs =>
        have hz0 : z = 0 := hz z (List.mem_cons_self z zs)
        simp only [List.zip_cons_cons, List.foldl_cons, hz0, Int.zero_tdiv,
          zero_mul, add_zero]
        exact ih zs fun z' hm => hz z' (List.mem_cons_of_mem _ hm)
  unfold totalOwed accPairs
  exact haux rates (List.replicate rates.length 0) fun z hm =>
    List.eq_of_mem_replicate hm

/-- `p = it.cur` whenever `TimeRangesIterator::next` yields `(p, ·)`. -/
theorem TimeRangesIterator.next_fst (it : TimeRangesIterator)
    (p : Int × Nat) (it' : TimeRangesIterator) (h : it.next = some (p, it')) :
    p = it.cur := by
  unfold TimeRangesIterator.next at h
  rcases hm : minNextDt it.time_ranges it.cur.1 with _ | nd
  · simp only [hm] at h
    exact absurd h (by simp)
  · simp only [hm] at h
    rcases hl : lastContainingIdx it.time_ranges nd with _ | ni
    · simp only [hl] at h
      exact absurd h (by simp)
    · simp only [hl, Option.some.injEq, Prod.mk.injEq] at h
      exact h.1.symm

/-- Shape of a successfully constructed `RobotWorkTimeIterator`. -/
theorem into_iter_spec (t : RobotWorkTime) (it : RobotWorkTimeIterator)
    (h : t.into_iter = some it) :
    it.cur.1 = t.start ∧ (∃ i, it.cur.2 = some i) ∧ it.stop = t.stop ∧
    it.break_iter = ⟨t.start, 8 * 3600, 1 * 3600⟩ ∧
    it.breaking = none ∧ it.is_finish = false := by
  unfold RobotWorkTime.into_iter at h
  rcases hn : TimeRangesIterator.new t.start t.time_range with _ | tri0
  · simp only [hn] at h
    exact absurd h (by simp)
  · simp only [hn] at h
    rcases ht : tri0.next with _ | ⟨cur0, tri⟩
    · simp only [ht] at h
      exact absurd h (by simp)
    · simp only [ht, Option.some.injEq] at h
      subst h
      have hc0 : cur0 = tri0.cur := TimeRangesIterator.next_fst tri0 cur0 tri ht
      have hcur : tri0.cur.1 = t.start := by
        unfold TimeRangesIterator.new at hn
        rcases hl : lastContainingIdx t.time_range t.start with _ | idx
        · simp only [hl] at hn
          exact absurd hn (by simp)
        · simp only [hl, Option.map_some', Option.some.injEq] at hn
          rw [← hn]
      exact ⟨by simp [hc0, hcur], ⟨cur0.2, rfl⟩, rfl, rfl, rfl, rfl⟩

/-- **C7.** The first step whose current instant is ≥ the activity end
emits `(end, finished)` exactly once and every later `next()` returns
`None`; when `end ≤ start` the whole timeline is the single finished pair
at the activity boundary and the aggregate over rate labels is zero. -/
theorem claim_C7 :
    (∀ it : RobotWorkTimeIterator, it.is_finish = false →
      it.stop ≤ it.cur.1 →
      it.next = some (some (it.stop, none), { it with is_finish := true })) ∧
    (∀ it : RobotWorkTimeIterator, it.is_finish = true →
      it.next = some (none, it)) ∧
    (∀ (t : RobotWorkTime) (it : RobotWorkTimeIterator) (fuel : Nat),
      t.into_iter = some it → t.stop ≤ t.start → 2 ≤ fuel →
      runIter fuel it = some [(t.stop, none)] ∧
      ∀ rates : List Int, totalOwed [(t.stop, none)] rates = 0) := by
  refine ⟨next_terminal, next_finished, ?_⟩
  intro t it fuel hinto hle hfuel
  obtain ⟨hcur, -, hstop, -, -, hfin⟩ := into_iter_spec t it hinto
  obtain ⟨f, rfl⟩ : ∃ f, fuel = f + 2 := ⟨fuel - 2, by omega⟩
  have hstep := next_terminal it hfin (by rw [hcur, hstop]; exact hle)
  refine ⟨?_, fun rates => totalOwed_singleton _ rates⟩
  show runIter (f + 1 + 1) it = some [(t.stop, none)]
  rw [runIter, hstep]
  show (runIter (f + 1) { it with is_finish := true }).map _ =
    some [(t.stop, none)]
  rw [runIter, next_finished { it with is_finish := true } rfl]
  simp [hstop]

/-- Witness for C7: the degenerate activity `degRW` (`end = start`). -/
theorem claim_C7_witness :
    runIter 2 degIt = some [((0 : Int), none)] ∧
    totalOwed [((0 : Int), (none : Option Nat))] [20, 25, 30, 35] = 0 :=
  ⟨(claim_C7.2.2 degRW degIt 2 (by decide) (by decide) (by decide)).1,
   (claim_C7.2.2 degRW degIt 2 (by decide) (by decide) (by decide)).2
     [20, 25, 30, 35]⟩

/-- Witness for C10: overlapping windows at `01:00` for construction, and a
`next` step landing on `02:00`, contained in two windows. -/
theorem claim_C10_witness :
    (∃ m rm, TimeRangesIterator.new 3600 ovRanges = some ⟨(3600, m), ovRanges⟩ ∧
      ovRanges.get? m = some rm ∧ rm.contains 3600 = true ∧
      ∀ j' r', m < j' → ovRanges.get? j' = some r' →
        r'.contains 3600 = false) ∧
    (∃ m rm, ovIt.next = some (ovIt.cur, ⟨(7200, m), ovRanges⟩) ∧
      ovIt.time_ranges.get? m = some rm ∧ rm.contains 7200 = true ∧
      ∀ j' r', m < j' → ovIt.time_ranges.get? j' = some r' →
        r'.contains 7200 = false) :=
  ⟨claim_C10.1 3600 ovRanges 0 1 ⟨0, 7200, allWeek⟩ ⟨3600, 10800, allWeek⟩
      (by decide) (by decide) (by decide) (by decide) (by decide),
   claim_C10.2 ovIt 7200 1 2 ⟨3600, 10800, allWeek⟩ ⟨3600, 10900, allWeek⟩
      (by decide) (by decide) (by decide) (by decide) (by decide) (by decide)⟩

/-- The weekday codes are exactly `0..6`. -/
theorem wdToNum_bounds (w : Weekday) : 0 ≤ wdToNum w ∧ wdToNum w < 7 := by
  cases w <;> simp [wdToNum]

/-- `wdFromNum` inverts `wdToNum`. -/
theorem wdFromNum_wdToNum (w : Weekday) : wdFromNum (wdToNum w) = w := by
  cases w <;> rfl

/-- Some day shift `d < 7` reaches any target weekday code modulo 7. -/
theorem exists_shift (w : Weekday) (k : Int) :
    ∃ d : Nat, d < 7 ∧ (k + d) % 7 = wdToNum w := by
  obtain ⟨hn0, hn7⟩ := wdToNum_bounds w
  refine ⟨(((wdToNum w - k % 7 + 7) % 7)).toNat, ?_, ?_⟩ <;> omega

/-- Adding `d` whole days advances the day number by `d`. -/
theorem dayOf_shift (s : Int) (d : Nat) :
    dayOf (s + 86400 * (d : Int)) = dayOf s + d := by
  unfold dayOf
  omega

/-- Adding `d` whole days rotates the weekday by `d` modulo 7. -/
theorem weekdayOf_shift (s : Int) (d : Nat) :
    weekdayOf (s + 86400 * (d : Int)) =
      wdFromNum ((dayOf s + 3 + d) % 7) := by
  unfold weekdayOf
  rw [dayOf_shift]
  congr 1
  ring_nf

/-- The head of a weekday list is a member for `memW`. -/
theorem memW_head (w : Weekday) (rest : List Weekday) :
    memW w (w :: rest) = true := by
  simp [memW]

/-- The relocation loop lands exactly on the least valid day shift. -/
theorem relocateFuel_eq (r : TimeRange) :
    ∀ (n : Nat) (s e : Int) (d : Nat), d < n →
      memW (weekdayOf (s + 86400 * (d : Int))) r.valid_weekdays = true →
      (∀ d' : Nat, d' < d →
        memW (weekdayOf (s + 86400 * (d' : Int))) r.valid_weekdays = false) →
      r.relocateFuel n (s, e) =
        some (s + 86400 * (d : Int), e + 86400 * (d : Int)) := by
  intro n
  induction n with
  | zero => intro s e d hd; omega
  | succ n ih =>
    intro s e d hd hmem hmin
    unfold TimeRange.relocateFuel
    by_cases hd0 : memW (weekdayOf s) r.valid_weekdays = true
    · rw [if_pos hd0]
      have hdz : d = 0 := by
        by_contra hne
        have h0 := hmin 0 (by omega)
        simp only [Nat.cast_zero, mul_zero, add_zero] at h0
        rw [h0] at hd0
        exact absurd hd0 (by simp)
      subst hdz
      simp
    · rw [if_neg hd0]
      have hdz : d ≠ 0 := by
        intro hz
        subst hz
        simp only [Nat.cast_zero, mul_zero, add_zero] at hmem
        exact hd0 hmem
      obtain ⟨d', rfl⟩ : ∃ d', d = d' + 1 := ⟨d - 1, by omega⟩
      have harg : ∀ (x : Int) (m : Nat), x + 86400 + 86400 * (m : Int) =
          x + 86400 * ((m + 1 : Nat) : Int) := by
        intro x m
        push_cast
        ring
      rw [ih (s + 86400) (e + 86400) d' (by omega)
        (by rw [harg]; exact hmem)
        (by
          intro d'' hlt
          rw [harg]
          exact hmin (d'' + 1) (by omega))]
      rw [harg s d', harg e d']

/-- **C9.** `get_next_range_start_at` applies the weekday-relocation loop
to the candidate occurrence; for every `TimeRange` with a non-empty
weekday set and every candidate `(s, e)`, the loop terminates within at
most 7 iterations (fuel 7 suffices) and yields `(s + d days, e + d days)`
for the least `d ≤ 6` whose shifted start weekday is valid, preserving
both clock times. -/
theorem claim_C9 :
    (∀ (r : TimeRange) (t : Int),
      r.get_next_range_start_at t = (r.candidate t).bind (r.relocateFuel 7)) ∧
    (∀ (r : TimeRange) (s e : Int), r.valid_weekdays ≠ [] →
      ∃ d : Nat, d ≤ 6 ∧
        r.relocateFuel 7 (s, e) =
          some (s + 86400 * (d : Int), e + 86400 * (d : Int)) ∧
        memW (weekdayOf (s + 86400 * (d : Int))) r.valid_weekdays = true ∧
        (∀ d' : Nat, d' < d →
          memW (weekdayOf (s + 86400 * (d' : Int))) r.valid_weekdays = false) ∧
        timeOfDay (s + 86400 * (d : Int)) = timeOfDay s ∧
        timeOfDay (e + 86400 * (d : Int)) = timeOfDay e) := by
  refine ⟨fun r t => rfl, ?_⟩
  intro r s e hne
  obtain ⟨w, rest, hw⟩ : ∃ w rest, r.valid_weekdays = w :: rest := by
    cases hvw : r.valid_weekdays with
    | nil => exact absurd hvw hne
    | cons w rest => exact ⟨w, rest, rfl⟩
  obtain ⟨d0, hd0lt, hd0⟩ := exists_shift w (dayOf s + 3)
  have hP0 : memW (weekdayOf (s + 86400 * (d0 : Int))) r.valid_weekdays
      = true := by
    rw [weekdayOf_shift, hd0, wdFromNum_wdToNum, hw]
    exact memW_head w rest
  have hx : ∃ d : Nat,
      memW (weekdayOf (s + 86400 * (d : Int))) r.valid_weekdays = true :=
    ⟨d0, hP0⟩
  refine ⟨Nat.find hx, ?_, ?_, Nat.find_spec hx, ?_, ?_, ?_⟩
  · have := Nat.find_min' hx hP0
    omega
  · refine relocateFuel_eq r 7 s e (Nat.find hx) ?_ (Nat.find_spec hx) ?_
    · have := Nat.find_min' hx hP0
      omega
    · intro d' hlt
      have := Nat.find_min hx hlt
      simpa using this
  · intro d' hlt
    have := Nat.find_min hx hlt
    simpa using this
  · unfold timeOfDay
    omega
  · unfold timeOfDay
    omega

/-- Witness for C9: the weekend day window relocated from a Thursday. -/
theorem claim_C9_witness :
    ∃ d : Nat, d ≤ 6 ∧
      r9.relocateFuel 7 (0, 82800) =
        some (0 + 86400 * (d : Int), 82800 + 86400 * (d : Int)) ∧
      memW (weekdayOf (0 + 86400 * (d : Int))) r9.valid_weekdays = true ∧
      (∀ d' : Nat, d' < d →
        memW (weekdayOf (0 + 86400 * (d' : Int))) r9.valid_weekdays = false) ∧
      timeOfDay (0 + 86400 * (d : Int)) = timeOfDay 0 ∧
      timeOfDay (82800 + 86400 * (d : Int)) = timeOfDay 82800 :=
  claim_C9.2 r9 0 82800 (by decide)

/-- A non-resting (labeled) emission does not contribute a rest start. -/
theorem restStarts_cons_some (x : Int × Option Nat)
    (xs : List (Int × Option Nat)) (hx : x.2.isNone = false) (hne : xs ≠ []) :
    restStarts (x :: xs) = restStarts xs := by
  cases xs with
  | nil => exact absurd rfl hne
  | cons y ys => simp [restStarts, hx]

/-- A non-terminal `none`-labeled emission contributes its instant. -/
theorem restStarts_cons_none (x : Int × Option Nat)
    (xs : List (Int × Option Nat)) (hx : x.2.isNone = true) (hne : xs ≠ []) :
    restStarts (x :: xs) = x.1 :: restStarts xs := by
  cases xs with
  | nil => exact absurd rfl hne
  | cons y ys => simp [restStarts, hx]

/-- `firstRestStart` outside a rest period. -/
theorem firstRestStart_none (it : RobotWorkTimeIterator)
    (h : it.breaking = none) :
    firstRestStart it = it.break_iter.start + 28800 := by
  simp [firstRestStart, h]

/-- `firstRestStart` inside a rest period. -/
theorem firstRestStart_some (it : RobotWorkTimeIterator) (be : Int)
    (st : Option Nat) (h : it.breaking = some (be, st)) :
    firstRestStart it = it.break_iter.start - 3600 := by
  simp [firstRestStart, h]

/-- Rest starts along a merged run are the arithmetic progression with
step `9h` anchored at `firstRestStart`.  The phase hypotheses record what
holds between steps: outside a rest the current label is a window index;
inside a rest, the pending pair is `(rest_end, label)` with the rest start
one hour before the rest end and the break generator already advanced to
the rest end. -/
theorem restStarts_spec :
    ∀ (fuel : Nat) (it : RobotWorkTimeIterator)
      (xs : List (Int × Option Nat)),
      runIter fuel it = some xs →
      it.is_finish = false →
      it.break_iter.work_duration = 28800 →
      it.break_iter.rest_duration = 3600 →
      (it.breaking = none → it.cur.2.isSome = true) →
      (∀ be st, it.breaking = some (be, st) →
        it.cur = (be - 3600, none) ∧ be = it.break_iter.start ∧
        st.isSome = true) →
      xs ≠ [] ∧
      ∀ k x, (restStarts xs).get? k = some x →
        x = firstRestStart it + 32400 * k := by
  intro fuel
  induction fuel with
  | zero => intro it xs hrun; exact absurd hrun (by simp [runIter])
  | succ n ih =>
    intro it xs hrun hfin hwd hrd hphN hphS
    simp only [runIter] at hrun
    by_cases hend : it.stop ≤ it.cur.1
    · -- terminal step: the run is the single finished pair
      simp only [next_terminal it hfin hend] at hrun
      rcases Option.map_eq_some'.mp hrun with ⟨xs', hxs', heq⟩
      cases n with
      | zero => exact absurd hxs' (by simp [runIter])
      | succ m =>
        simp only [runIter,
          next_finished { it with is_finish := true } rfl] at hxs'
        have hxs'nil : xs' = [] := by simpa using hxs'.symm
        subst hxs'nil
        rw [← heq]
        refine ⟨by simp, ?_⟩
        intro k x hk
        simp [restStarts] at hk
    · have hlt : it.cur.1 < it.stop := not_le.mp hend
      rcases hbr : it.breaking with _ | ⟨be, st⟩
      · -- phase A: not resting
        obtain ⟨v, hv⟩ := Option.isSome_iff_exists.mp (hphN hbr)
        rcases ht : it.time_ranges_iter.next with _ | ⟨⟨nts, nst⟩, tri⟩
        · have hfail : it.next = none := by
            simp only [RobotWorkTimeIterator.next, hbr, ht]
            rw [if_neg (by simp [hfin]), if_neg hend]
          simp only [hfail] at hrun
          exact absurd hrun (by simp)
        · by_cases hcmp :
              nts < it.break_iter.start + it.break_iter.work_duration
          · -- rate transition first
            simp only [next_rate it nts nst tri hfin hlt hbr ht hcmp]
              at hrun
            rcases Option.map_eq_some'.mp hrun with ⟨xs', hxs', heq⟩
            obtain ⟨hne', hk'⟩ := ih _ xs' hxs' hfin hwd hrd
              (fun _ => by simp)
              (fun be' st' h => by
                have h' : it.breaking = some (be', st') := h
                rw [hbr] at h'
                exact absurd h' (by simp))
            subst heq
            refine ⟨by simp, ?_⟩
            rw [restStarts_cons_some it.cur xs' (by simp [hv]) hne']
            intro k x hk
            exact hk' k x hk
          · -- rest starts at or before the transition
            have hge : it.break_iter.start + it.break_iter.work_duration
                ≤ nts := not_lt.mp hcmp
            simp only [next_rest it nts nst tri hfin hlt hbr ht hge] at hrun
            rcases Option.map_eq_some'.mp hrun with ⟨xs', hxs', heq⟩
            obtain ⟨hne', hk'⟩ := ih _ xs' hxs' hfin hwd hrd
              (fun h => absurd h (by simp))
              (fun be' st' h => by
                simp only [Option.some.injEq, Prod.mk.injEq] at h
                obtain ⟨h1, h2⟩ := h
                subst h1
                refine ⟨?_, rfl, by rw [← h2, hv]; rfl⟩
                have harith : it.break_iter.start
                    + it.break_iter.work_duration =
                    it.break_iter.start + it.break_iter.work_duration
                    + it.break_iter.rest_duration - 3600 := by
                  rw [hrd]; ring
                rw [← harith])
            subst heq
            refine ⟨by simp, ?_⟩
            rw [restStarts_cons_some it.cur xs' (by simp [hv]) hne']
            intro k x hk
            have hres : x = it.break_iter.start + it.break_iter.work_duration
                + it.break_iter.rest_duration - 3600 + 32400 * (k : Int) :=
              hk' k x hk
            rw [firstRestStart_none _ hbr]
            simp only [hwd, hrd] at hres
            omega
      · -- phase B: inside a rest period
        obtain ⟨hcur, hbe, hst⟩ := hphS be st hbr
        rcases ht : it.time_ranges_iter.next with _ | ⟨⟨nts, nst⟩, tri⟩
        · have hfail : it.next = none := by
            simp only [RobotWorkTimeIterator.next, hbr, ht]
            rw [if_neg (by simp [hfin]), if_neg hend]
          simp only [hfail] at hrun
          exact absurd hrun (by simp)
        · by_cases habs : nts ≤ be
          · -- the transition is absorbed
            simp only [next_absorb it be st nts nst tri hfin hlt hbr ht habs]
              at hrun
            rcases Option.map_eq_some'.mp hrun with ⟨xs', hxs', heq⟩
            obtain ⟨hne', hk'⟩ := ih _ xs' hxs' hfin hwd hrd
              (fun _ => by simp)
              (fun be' st' h => absurd h (by simp))
            subst heq
            refine ⟨by simp, ?_⟩
            rw [restStarts_cons_none it.cur xs' (by simp [hcur]) hne']
            intro k x hk
            rw [firstRestStart_some _ _ _ hbr]
            cases k with
            | zero =>
              simp only [List.get?_cons_zero, Option.some.injEq] at hk
              subst hk
              have h1 : it.cur.1 = be - 3600 := by rw [hcur]
              rw [h1, hbe]
              omega
            | succ k' =>
              simp only [List.get?_cons_succ] at hk
              have hres : x = it.break_iter.start + 28800
                  + 32400 * (k' : Int) := hk' k' x hk
              rw [hres]
              push_cast
              ring
          · -- the transition lies beyond the rest end
            have hgt : be < nts := not_le.mp habs
            simp only [next_noabsorb it be st nts nst tri hfin hlt hbr ht hgt]
              at hrun
            rcases Option.map_eq_some'.mp hrun with ⟨xs', hxs', heq⟩
            obtain ⟨hne', hk'⟩ := ih _ xs' hxs' hfin hwd hrd
              (fun _ => by simp [hst])
              (fun be' st' h => absurd h (by simp))
            subst heq
            refine ⟨by simp, ?_⟩
            rw [restStarts_cons_none it.cur xs' (by simp [hcur]) hne']
            intro k x hk
            rw [firstRestStart_some _ _ _ hbr]
            cases k with
            | zero =>
              simp only [List.get?_cons_zero, Option.some.injEq] at hk
              subst hk
              have h1 : it.cur.1 = be - 3600 := by rw [hcur]
              rw [h1, hbe]
              omega
            | succ k' =>
              simp only [List.get?_cons_succ] at hk
              have hres : x = it.break_iter.start + 28800
                  + 32400 * (k' : Int) := hk' k' x hk
              rw [hres]
              push_cast
              ring

/-- **C4.** Every `BreakIterator` step from state `current` emits
`(current + work, current + work + rest)` and moves the state to
`current + work + rest`; with the fixed 8h/1h durations the `k`-th emitted
pair is `(anchor + 8h + 9h·k, anchor + 9h + 9h·k)`; and in any merged
timeline obtained from `into_iter`, the `k`-th resting-labeled instant is
`start + 8h + 9h·k`, so consecutive resting instants are exactly 9 hours
apart measured from the activity start, independent of the rate-window
boundaries. -/
theorem claim_C4 :
    (∀ b wd rd : Int, BreakIterator.next ⟨b, wd, rd⟩ =
      ((b + wd, b + wd + rd), ⟨b + wd + rd, wd, rd⟩)) ∧
    (∀ (b : Int) (k : Nat),
      BreakIterator.nthPair ⟨b, 8 * 3600, 1 * 3600⟩ k =
        (b + 8 * 3600 + 9 * 3600 * k, b + 9 * 3600 + 9 * 3600 * k)) ∧
    (∀ (t : RobotWorkTime) (it : RobotWorkTimeIterator) (fuel : Nat)
        (xs : List (Int × Option Nat)),
      t.into_iter = some it → runIter fuel it = some xs →
      (∀ k x, (restStarts xs).get? k = some x →
        x = t.start + 8 * 3600 + 9 * 3600 * k) ∧
      (∀ k x y, (restStarts xs).get? k = some x →
        (restStarts xs).get? (k + 1) = some y → y - x = 9 * 3600)) := by
  refine ⟨fun b wd rd => rfl, ?_, ?_⟩
  · intro b k
    induction k generalizing b with
    | zero =>
      show ((b + 8 * 3600, b + 8 * 3600 + 1 * 3600) : Int × Int) = _
      rw [Prod.mk.injEq]
      constructor <;> push_cast <;> ring
    | succ k ih =>
      have h1 : (⟨b, 8 * 3600, 1 * 3600⟩ : BreakIterator).nthPair (k + 1) =
          (⟨b + 8 * 3600 + 1 * 3600, 8 * 3600, 1 * 3600⟩ :
            BreakIterator).nthPair k := rfl
      rw [h1, ih (b + 8 * 3600 + 1 * 3600)]
      simp only [Prod.mk.injEq]
      constructor <;> push_cast <;> ring
  · intro t it fuel xs hinto hrun
    obtain ⟨hcur, ⟨i, hi⟩, hstop, hbk, hbrk, hfin⟩ := into_iter_spec t it hinto
    obtain ⟨-, hk⟩ := restStarts_spec fuel it xs hrun hfin
      (by rw [hbk]; norm_num) (by rw [hbk]; norm_num)
      (fun _ => by simp [hi])
      (fun be st h => by rw [hbrk] at h; exact absurd h (by simp))
    constructor
    · intro k x hkx
      have hres := hk k x hkx
      rw [firstRestStart_none _ hbrk, hbk] at hres
      have hres2 : x = t.start + 28800 + 32400 * (k : Int) := hres
      omega
    · intro k x y hx hy
      have h1 := hk k x hx
      have h2 := hk (k + 1) y hy
      omega

/-- Witness for C4's merged-timeline conjunct at the reference activity:
its only rest start is at `2021-09-06T06:00:00`, eight hours after the
activity start. -/
theorem claim_C4_witness :
    mkDT 2021 9 6 6 0 0 = c1RW.start + 8 * 3600 + 9 * 3600 * ((0 : Nat) : Int) :=
  ((claim_C4.2.2 c1RW c1It 20 c1xs (by decide) (by decide)).1) 0
    (mkDT 2021 9 6 6 0 0) (by decide)

/-- Every weekday is a member of the full week. -/
theorem memW_allWeek (w : Weekday) : memW w allWeek = true := by
  cases w <;> rfl

/-- The two `cexRanges` windows cover every instant. -/
theorem cex_total : ∀ t : Int,
    ∃ i r, cexRanges.get? i = some r ∧ r.contains t = true := by
  intro t
  have hb : 0 ≤ t % 86400 ∧ t % 86400 < 86400 :=
    ⟨Int.emod_nonneg t (by norm_num), Int.emod_lt_of_pos t (by norm_num)⟩
  by_cases h1 : 29100 ≤ t % 86400 ∧ t % 86400 < 30600
  · refine ⟨0, ⟨29100, 30600, allWeek⟩, rfl, ?_⟩
    unfold TimeRange.contains timeOfDay
    rw [if_pos (memW_allWeek _)]
    simp only [Bool.or_eq_true, Bool.and_eq_true, decide_eq_true_eq,
      ge_iff_le, gt_iff_lt]
    omega
  · refine ⟨1, ⟨30600, 29100, allWeek⟩, rfl, ?_⟩
    unfold TimeRange.contains timeOfDay
    rw [if_pos (memW_allWeek _)]
    simp only [Bool.or_eq_true, Bool.and_eq_true, decide_eq_true_eq,
      ge_iff_le, gt_iff_lt]
    omega

/-- The two `cexRanges` windows never overlap. -/
theorem cex_disjoint : ∀ (t : Int) (i j : Nat) (ri rj : TimeRange),
    cexRanges.get? i = some ri → cexRanges.get? j = some rj →
    ri.contains t = true → rj.contains t = true → i = j := by
  intro t i j ri rj hi hj hci hcj
  have key : ¬ ((⟨29100, 30600, allWeek⟩ : TimeRange).contains t = true ∧
      (⟨30600, 29100, allWeek⟩ : TimeRange).contains t = true) := by
    rintro ⟨h1, h2⟩
    unfold TimeRange.contains timeOfDay at h1 h2
    rw [if_pos (memW_allWeek _)] at h1 h2
    simp only [Bool.or_eq_true, Bool.and_eq_true, decide_eq_true_eq,
      ge_iff_le, gt_iff_lt] at h1 h2
    omega
  have hidx : ∀ (m : Nat) (rm : TimeRange), cexRanges.get? m = some rm →
      (m = 0 ∧ rm = ⟨29100, 30600, allWeek⟩) ∨
      (m = 1 ∧ rm = ⟨30600, 29100, allWeek⟩) := by
    intro m rm hm
    match m with
    | 0 =>
      left
      refine ⟨rfl, ?_⟩
      have : some (⟨29100, 30600, allWeek⟩ : TimeRange) = some rm := hm
      exact (Option.some.injEq _ _ ▸ this).symm
    | 1 =>
      right
      refine ⟨rfl, ?_⟩
      have : some (⟨30600, 29100, allWeek⟩ : TimeRange) = some rm := hm
      exact (Option.some.injEq _ _ ▸ this).symm
    | n + 2 => simp [cexRanges] at hm
  rcases hidx i ri hi with ⟨hi', hri⟩ | ⟨hi', hri⟩ <;>
    rcases hidx j rj hj with ⟨hj', hrj⟩ | ⟨hj', hrj⟩ <;>
    subst hi' <;> subst hj' <;> subst hri <;> subst hrj
  · rfl
  · exact absurd ⟨hci, hcj⟩ key
  · exact absurd ⟨hcj, hci⟩ key
  · rfl

/-- **C2 counterexample.** The two-window scheme `cexRanges` is a total,
non-overlapping partition of the week and the activity
`cexRW = [0, 36000]` satisfies `start ≤ end`, yet the emitted instants are
not strictly increasing: the run is `(0, window 1)`, `(28800, resting)`,
`(32400, window 0)`, `(30600, window 1)`, `(36000, finished)` — the fourth
instant lies before the third, because the first rest period covers two
rate transitions (at 29100 and 30600) but absorbs only one of them. -/
theorem claim_C2_counterexample :
    (∀ t : Int, ∃ i r, cexRanges.get? i = some r ∧ r.contains t = true) ∧
    (∀ (t : Int) (i j : Nat) (ri rj : TimeRange),
      cexRanges.get? i = some ri → cexRanges.get? j = some rj →
      ri.contains t = true → rj.contains t = true → i = j) ∧
    cexRW.start ≤ cexRW.stop ∧
    cexRW.into_iter.bind (runIter 8) =
      some [(0, some 1), (28800, none), (32400, some 0), (30600, some 1),
            (36000, none)] ∧
    strictIncrB [((0 : Int), (some 1 : Option Nat)), (28800, none),
      (32400, some 0), (30600, some 1), (36000, none)] = false :=
  ⟨cex_total, cex_disjoint, by decide, by decide, by decide⟩

/-- Exhaustive shape of a live merge-iterator step: either the terminal
emission, or a panic, or a yield of the current pair whose successor is
live with the same activity end. -/
theorem next_shape (it : RobotWorkTimeIterator) (hfin : it.is_finish = false) :
    (it.stop ≤ it.cur.1 ∧
      it.next = some (some (it.stop, none), { it with is_finish := true })) ∨
    (it.cur.1 < it.stop ∧
      (it.next = none ∨ ∃ it', it.next = some (some it.cur, it') ∧
        it'.is_finish = false ∧ it'.stop = it.stop)) := by
  by_cases hend : it.stop ≤ it.cur.1
  · exact Or.inl ⟨hend, next_terminal it hfin hend⟩
  · have hlt : it.cur.1 < it.stop := not_le.mp hend
    refine Or.inr ⟨hlt, ?_⟩
    rcases hbr : it.breaking with _ | ⟨be, st⟩
    · rcases ht : it.time_ranges_iter.next with _ | ⟨⟨nts, nst⟩, tri⟩
      · left
        simp only [RobotWorkTimeIterator.next, hbr, ht]
        rw [if_neg (by simp [hfin]), if_neg hend]
      · right
        by_cases hcmp :
            nts < it.break_iter.start + it.break_iter.work_duration
        · exact ⟨_, next_rate it nts nst tri hfin hlt hbr ht hcmp,
            hfin, rfl⟩
        · exact ⟨_, next_rest it nts nst tri hfin hlt hbr ht
            (not_lt.mp hcmp), hfin, rfl⟩
    · rcases ht : it.time_ranges_iter.next with _ | ⟨⟨nts, nst⟩, tri⟩
      · left
        simp only [RobotWorkTimeIterator.next, hbr, ht]
        rw [if_neg (by simp [hfin]), if_neg hend]
      · right
        by_cases habs : nts ≤ be
        · exact ⟨_, next_absorb it be st nts nst tri hfin hlt hbr ht habs,
            hfin, rfl⟩
        · exact ⟨_, next_noabsorb it be st nts nst tri hfin hlt hbr ht
            (not_le.mp habs), hfin, rfl⟩

/-- A successful run from a live state is non-empty and ends with the
terminal `(end, finished)` emission. -/
theorem run_last : ∀ (fuel : Nat) (it : RobotWorkTimeIterator)
    (xs : List (Int × Option Nat)),
    runIter fuel it = some xs → it.is_finish = false →
    xs ≠ [] ∧ lastE xs = some (it.stop, none) := by
  intro fuel
  induction fuel with
  | zero => intro it xs h _; exact absurd h (by simp [runIter])
  | succ n ih =>
    intro it xs hrun hfin
    simp only [runIter] at hrun
    rcases next_shape it hfin with ⟨hend, hstep⟩ | ⟨hlt, hstep⟩
    · simp only [hstep] at hrun
      rcases Option.map_eq_some'.mp hrun with ⟨xs', hxs', heq⟩
      cases n with
      | zero => exact absurd hxs' (by simp [runIter])
      | succ m =>
        simp only [runIter,
          next_finished { it with is_finish := true } rfl] at hxs'
        have hnil : xs' = [] := by simpa using hxs'.symm
        subst hnil
        rw [← heq]
        exact ⟨by simp, rfl⟩
    · rcases hstep with hnone | ⟨it', hstep, hfin', hstop'⟩
      · simp only [hnone] at hrun
        exact absurd hrun (by simp)
      · simp only [hstep] at hrun
        rcases Option.map_eq_some'.mp hrun with ⟨xs', hxs', heq⟩
        obtain ⟨hne', hlast'⟩ := ih it' xs' hxs' hfin'
        subst heq
        refine ⟨by simp, ?_⟩
        have hstepL : lastE (it.cur :: xs') = lastE xs' := by
          cases xs' with
          | nil => exact absurd rfl hne'
          | cons y ys => rfl
        rw [hstepL, hlast', hstop']

/-- A successful run from a live, unfinished instant starts with the
current pair. -/
theorem run_head (fuel : Nat) (it : RobotWorkTimeIterator)
    (xs : List (Int × Option Nat)) (hrun : runIter fuel it = some xs)
    (hfin : it.is_finish = false) (hlt : it.cur.1 < it.stop) :
    xs.head? = some it.cur := by
  cases fuel with
  | zero => exact absurd hrun (by simp [runIter])
  | succ n =>
    simp only [runIter] at hrun
    rcases next_shape it hfin with ⟨hend, -⟩ | ⟨-, hstep⟩
    · omega
    · rcases hstep with hnone | ⟨it', hstep, -, -⟩
      · simp only [hnone] at hrun
        exact absurd hrun (by simp)
      · simp only [hstep] at hrun
        rcases Option.map_eq_some'.mp hrun with ⟨xs', -, heq⟩
        rw [← heq]
        rfl

/-- The telescoping sum of a non-empty emission list is last minus head. -/
theorem telesum_eq : ∀ xs : List (Int × Option Nat), xs ≠ [] →
    ∃ h l, xs.head? = some h ∧ lastE xs = some l ∧
      telesum xs = l.1 - h.1 := by
  intro xs
  induction xs with
  | nil => intro h; exact absurd rfl h
  | cons x xs ih =>
    intro _
    cases xs with
    | nil => exact ⟨x, x, rfl, rfl, by simp [telesum]⟩
    | cons y ys =>
      obtain ⟨h', l, hh', hl, hsum⟩ := ih (by simp)
      have hhy : h' = y := by simpa using hh'.symm
      refine ⟨x, l, rfl, hl, ?_⟩
      show (y.1 - x.1) + telesum (y :: ys) = l.1 - x.1
      rw [hsum, hhy]
      ring

/-- **C2 (amended).** For every successfully constructed activity iterator
with `start ≤ end`, a successful run is non-empty, its final emission is
`(end, finished)`, its first emission is the activity start (when
`start < end`), and the telescoping sum of the signed interval durations
`instant_{i+1} - instant_i` equals `end - start`.  The instants, however,
need not be strictly increasing when one rest period covers more than one
rate transition (see the counterexample); they are strictly increasing in
the reference four-window scenario, whose run is `c1xs`. -/
theorem claim_C2_amended :
    (∀ (t : RobotWorkTime) (it : RobotWorkTimeIterator) (fuel : Nat)
        (xs : List (Int × Option Nat)),
      t.into_iter = some it → runIter fuel it = some xs →
      t.start ≤ t.stop →
      xs ≠ [] ∧ lastE xs = some (t.stop, none) ∧
      (t.start < t.stop → xs.head? = some it.cur ∧ it.cur.1 = t.start) ∧
      telesum xs = t.stop - t.start) ∧
    strictIncrB c1xs = true ∧
    c1RW.into_iter.bind (runIter 20) = some c1xs := by
  refine ⟨?_, by decide, by decide⟩
  intro t it fuel xs hinto hrun hle
  obtain ⟨hcur, ⟨i, hi⟩, hstop, hbk, hbrk, hfin⟩ := into_iter_spec t it hinto
  obtain ⟨hne, hlast⟩ := run_last fuel it xs hrun hfin
  have hlast' : lastE xs = some (t.stop, none) := by rw [hlast, hstop]
  have hhead1 : ∃ h, xs.head? = some h ∧ h.1 = t.start := by
    rcases eq_or_lt_of_le hle with heq | hlt
    · cases fuel with
      | zero => exact absurd hrun (by simp [runIter])
      | succ n =>
        have hterm := next_terminal it hfin (by omega)
        simp only [runIter, hterm] at hrun
        rcases Option.map_eq_some'.mp hrun with ⟨xs', -, hxs⟩
        rw [← hxs]
        exact ⟨(it.stop, none), rfl, by rw [hstop]; omega⟩
    · exact ⟨it.cur, run_head fuel it xs hrun hfin (by omega), hcur⟩
  obtain ⟨h, hh, hh1⟩ := hhead1
  obtain ⟨h', l, hh', hl', hsum⟩ := telesum_eq xs hne
  have hhh : h' = h := by rw [hh] at hh'; exact (Option.some.injEq _ _ ▸ hh').symm
  subst hhh
  have hll : l = (t.stop, none) := by
    rw [hlast'] at hl'
    exact (Option.some.injEq _ _ ▸ hl'.symm)
  refine ⟨hne, hlast', fun hlt => ⟨run_head fuel it xs hrun hfin (by omega),
    hcur⟩, ?_⟩
  rw [hsum, hll, hh1]

/-- Witness for the amended C2 at the reference scenario: the telescoping
sum over its run equals end minus start. -/
theorem claim_C2_amended_witness :
    telesum c1xs = c1RW.stop - c1RW.start :=
  (claim_C2_amended.1 c1RW c1It 20 c1xs (by decide) (by decide)
    (by decide)).2.2.2
